import Mathlib

/-!
Verification of the `safeurl` library: a shallow embedding of the URL
validator `isSafeUrl` and the fetch wrapper `safeFetch` from
`src/index.ts`, together with theorems settling the specification's
testable properties.  Strings are modelled as Lean `String` / `List Char`;
the ASCII-only `toLowerCase` of the scheme comparison is modelled with
`Char.toLower`, which agrees with JavaScript on ASCII input.
-/

namespace SafeUrl

/-- Model of the `SafeUrlOptions` interface: both fields are optional in the
caller's object literal; the destructuring defaults of `isSafeUrl` are
applied by `effectiveAllowRelative` / `effectiveProtocols`. -/
structure SafeUrlOptions where
  allowRelative : Option Bool
  allowedProtocols : Option (List String)

/-- The destructuring default `allowRelative = true`. -/
def effectiveAllowRelative (o : SafeUrlOptions) : Bool :=
  o.allowRelative.getD true

/-- The destructuring default `allowedProtocols = ['http', 'https']`. -/
def effectiveProtocols (o : SafeUrlOptions) : List String :=
  o.allowedProtocols.getD ["http", "https"]

/-- The options object `{}` used when a caller omits the second argument. -/
def defaultOptions : SafeUrlOptions :=
  ⟨none, none⟩

/-- One character of the control-character class `[\r\n\t]`. -/
def ctlChar (c : Char) : Bool :=
  c == '\r' || c == '\n' || c == '\t'

/-- Test of the regex `[\r\n\t]` against the whole string: some character
of the string lies in the class. -/
def containsCtl (u : List Char) : Bool :=
  u.any ctlChar

/-- The tail group of the traversal regex, matching the part after the two
dots: forward slash or end of string. -/
def postOkB : List Char → Bool
  | [] => true
  | c :: _ => c == '/'

/-- Match of the regex fragment starting at the current position: two
literal dots followed by a slash or the end of the string. -/
def dotdotBoundary : List Char → Bool
  | c1 :: c2 :: rest => c1 == '.' && (c2 == '.' && postOkB rest)
  | _ => false

/-- Scan for an occurrence of a forward slash followed by a dot-dot
boundary, anywhere in the string. -/
def traversalScan : List Char → Bool
  | [] => false
  | c :: rest => (c == '/' && dotdotBoundary rest) || traversalScan rest

/-- Test of the traversal regex against the whole string: a dot-dot
boundary at the start of the string, or after some forward slash. -/
def hasTraversal (u : List Char) : Bool :=
  dotdotBoundary u || traversalScan u

/-- Character-wise lower casing, modelling `String.prototype.toLowerCase`
on ASCII input. -/
def lowerL (u : List Char) : List Char :=
  u.map Char.toLower

/-- Prefix test `s.startsWith(p)`: first argument the pattern, second the
string. -/
def startsWithL : List Char → List Char → Bool
  | [], _ => true
  | _ :: _, [] => false
  | p :: ps, c :: cs => p == c && startsWithL ps cs

/-- The allowlist test of step 3: some configured protocol, lower cased and
suffixed with the three characters of the separator, is a prefix of the
lower-cased URL. -/
def hasAllowedProtocol (u : List Char) (protocols : List String) : Bool :=
  protocols.any (fun p => startsWithL (lowerL p.data ++ [':', '/', '/']) (lowerL u))

/-- Model of `String.prototype.indexOf` for a single character: the index
of the first occurrence, `none` standing for the sentinel `-1`. -/
def firstIdx (c : Char) : List Char → Option Nat
  | [] => none
  | x :: xs => if x == c then some 0 else (firstIdx c xs).map (fun n => n + 1)

/-- The scheme-detection test of step 4: a colon exists and either no
forward slash exists or the first colon precedes the first slash. -/
def hasProto (u : List Char) : Bool :=
  match firstIdx ':' u, firstIdx '/' u with
  | some ci, some si => decide (ci < si)
  | some _, none => true
  | none, _ => false

/-- The validator `isSafeUrl` of `src/index.ts`, applied to a genuine
string argument.  The guard `!url` of the source rejects the empty string;
the ordered vetoes follow. -/
def isSafeUrl (url : String) (options : SafeUrlOptions) : Bool :=
  if url.data.isEmpty then false
  else if containsCtl url.data then false
  else if hasTraversal url.data then false
  else if hasAllowedProtocol url.data (effectiveProtocols options) then true
  else if hasProto url.data then false
  else if effectiveAllowRelative options = false then false
  else true

/-- A JavaScript value reaching `isSafeUrl` from an untyped call site:
either a genuine string or any non-string value. -/
inductive JsValue where
  | str (s : String)
  | nonString

/-- The validator including the `typeof url !== 'string'` guard of the
source: every non-string value is rejected before any pattern matching
(a falsy value by `!url`, a truthy non-string by the `typeof` test). -/
def isSafeUrlJs (v : JsValue) (o : SafeUrlOptions) : Bool :=
  match v with
  | JsValue.str s => isSafeUrl s o
  | JsValue.nonString => false

/-- The input shapes accepted by `safeFetch`: a plain string, a `URL`
instance (modelled by its `toString` form), or a request-descriptor
object whose `url` field is a string (`some`) or not a string (`none`). -/
inductive FetchInput where
  | str (s : String)
  | urlObj (s : String)
  | request (url : Option String)

/-- The security-violation message built in the request branch of
`safeFetch`. -/
def secViolationMsg (u : String) : String :=
  "Security Violation: URL contains unsafe characters or traversal attempts: \"" ++ u ++ "\""

/-- The shape-error message of the request branch. -/
def badRequestMsg : String :=
  "Request object does not have a valid URL string."

/-- Model of `safeFetch` from `src/index.ts`.  `Except.ok (i, v)` stands
for the call `fetch(i, v)` with the original input and options; an
`Except.error` stands for a thrown error before any network activity.
The source contains no call to `isSafeUrl`: string and URL inputs fall
through to `fetch` unconditionally, and the request branch, after
extracting a string `url` field, reaches an unconditional throw. -/
def safeFetch {α : Type} (input : FetchInput) (init : α) : Except String (FetchInput × α) :=
  match input with
  | FetchInput.str _ => Except.ok (input, init)
  | FetchInput.urlObj _ => Except.ok (input, init)
  | FetchInput.request (some u) => Except.error (secViolationMsg u)
  | FetchInput.request none => Except.error badRequestMsg

/-- Specification-side predicate: the part of the string after the two
dots is empty or begins with a forward slash. -/
def postOk (post : List Char) : Prop :=
  post = [] ∨ ∃ q, post = '/' :: q

/-- Specification-side predicate: the string contains a literal dot-dot as
a complete path segment, bounded on the left by the start of the string or
a forward slash and on the right by a forward slash or the end. -/
def segBoundedDotdot (u : List Char) : Prop :=
  (∃ post, u = '.' :: '.' :: post ∧ postOk post) ∨
  (∃ pre post, u = pre ++ '/' :: '.' :: '.' :: post ∧ postOk post)

/-- Specification-side predicate: the string is scheme-bearing, carrying a
colon that no forward slash precedes. -/
def schemeBearing (u : List Char) : Prop :=
  ∃ pre post, u = pre ++ ':' :: post ∧ ('/' : Char) ∉ pre

/-- Specification-side predicate: the string begins, case-insensitively,
with some configured protocol followed by the colon-slash-slash
separator. -/
def allowlisted (u : List Char) (ps : List String) : Prop :=
  ∃ p ∈ ps, startsWithL (lowerL p.data ++ [':', '/', '/']) (lowerL u) = true

/-- The string contains two consecutive dots somewhere (segment-bounded or
not). -/
def hasDotdotSub : List Char → Bool
  | [] => false
  | c :: rest => startsWithL ['.', '.'] (c :: rest) || hasDotdotSub rest

/-- Characterization of the prefix test as a list decomposition. -/
theorem startsWithL_iff (p s : List Char) : startsWithL p s = true ↔ ∃ r, s = p ++ r := by
  induction p generalizing s with
  | nil => simp [startsWithL]
  | cons a ps ih =>
    cases s with
    | nil => simp [startsWithL]
    | cons c cs =>
      rw [startsWithL, Bool.and_eq_true, beq_iff_eq, ih]
      constructor
      · rintro ⟨rfl, r, rfl⟩
        exact ⟨r, rfl⟩
      · rintro ⟨r, hr⟩
        rw [List.cons_append] at hr
        simp only [List.cons.injEq] at hr
        exact ⟨hr.1.symm, r, hr.2⟩

/-- Characterization of the Boolean tail test by the tail predicate. -/
theorem postOkB_iff (t : List Char) : postOkB t = true ↔ postOk t := by
  cases t with
  | nil => simp [postOkB, postOk]
  | cons c q =>
    simp only [postOkB, beq_iff_eq, postOk, List.cons.injEq, reduceCtorEq, false_or]
    constructor
    · rintro rfl
      exact ⟨q, rfl, rfl⟩
    · rintro ⟨q2, hq, -⟩
      exact hq

/-- Characterization of a dot-dot boundary match at the head of the
string. -/
theorem dotdotBoundary_iff (t : List Char) :
    dotdotBoundary t = true ↔ ∃ post, t = '.' :: '.' :: post ∧ postOk post := by
  cases t with
  | nil => simp [dotdotBoundary]
  | cons c1 t1 =>
    cases t1 with
    | nil => simp [dotdotBoundary]
    | cons c2 rest =>
      rw [dotdotBoundary, Bool.and_eq_true, Bool.and_eq_true, beq_iff_eq, beq_iff_eq,
        postOkB_iff]
      constructor
      · rintro ⟨rfl, rfl, hp⟩
        exact ⟨rest, rfl, hp⟩
      · rintro ⟨post, hp, hq⟩
        simp only [List.cons.injEq] at hp
        exact ⟨hp.1, hp.2.1, hp.2.2 ▸ hq⟩

/-- Characterization of the scan: a slash somewhere, followed by a dot-dot
boundary. -/
theorem traversalScan_iff (u : List Char) :
    traversalScan u = true ↔ ∃ pre t, u = pre ++ '/' :: t ∧ dotdotBoundary t = true := by
  induction u with
  | nil => simp [traversalScan]
  | cons c rest ih =>
    rw [traversalScan, Bool.or_eq_true, Bool.and_eq_true, beq_iff_eq, ih]
    constructor
    · rintro (⟨rfl, hb⟩ | ⟨pre, t, rfl, hb⟩)
      · exact ⟨[], rest, rfl, hb⟩
      · exact ⟨c :: pre, t, rfl, hb⟩
    · rintro ⟨pre, t, heq, hb⟩
      cases pre with
      | nil =>
        simp only [List.nil_append, List.cons.injEq] at heq
        exact Or.inl ⟨heq.1, heq.2 ▸ hb⟩
      | cons p pre2 =>
        simp only [List.cons_append, List.cons.injEq] at heq
        exact Or.inr ⟨pre2, t, heq.2, hb⟩

/-- The traversal regex fires exactly on a segment-bounded literal
dot-dot. -/
theorem hasTraversal_iff (u : List Char) : hasTraversal u = true ↔ segBoundedDotdot u := by
  rw [hasTraversal, Bool.or_eq_true, dotdotBoundary_iff, traversalScan_iff, segBoundedDotdot]
  constructor
  · rintro (⟨post, rfl, hp⟩ | ⟨pre, t, rfl, hb⟩)
    · exact Or.inl ⟨post, rfl, hp⟩
    · rcases (dotdotBoundary_iff t).1 hb with ⟨post, rfl, hp⟩
      exact Or.inr ⟨pre, post, rfl, hp⟩
  · rintro (⟨post, rfl, hp⟩ | ⟨pre, post, rfl, hp⟩)
    · exact Or.inl ⟨post, rfl, hp⟩
    · exact Or.inr ⟨pre, '.' :: '.' :: post, rfl, (dotdotBoundary_iff _).2 ⟨post, rfl, hp⟩⟩

/-- An empty string never matches the scheme test. -/
theorem hasProto_nil : hasProto [] = false := rfl

/-- A leading colon always makes the string scheme-bearing. -/
theorem hasProto_colon (t : List Char) : hasProto (':' :: t) = true := by
  have h1 : firstIdx ':' (':' :: t) = some 0 := by simp [firstIdx]
  have h2 : firstIdx '/' (':' :: t) = (firstIdx '/' t).map (fun n => n + 1) := by
    simp [firstIdx]
  rw [hasProto, h1, h2]
  cases firstIdx '/' t with
  | none => rfl
  | some si => simp

/-- A leading slash prevents the scheme test from succeeding. -/
theorem hasProto_slash (t : List Char) : hasProto ('/' :: t) = false := by
  have h1 : firstIdx ':' ('/' :: t) = (firstIdx ':' t).map (fun n => n + 1) := by
    simp [firstIdx]
  have h2 : firstIdx '/' ('/' :: t) = some 0 := by simp [firstIdx]
  rw [hasProto, h1, h2]
  cases firstIdx ':' t with
  | none => rfl
  | some ci => simp

/-- A neutral head character leaves the scheme test unchanged. -/
theorem hasProto_cons (c : Char) (t : List Char) (hc : c ≠ ':') (hs : c ≠ '/') :
    hasProto (c :: t) = hasProto t := by
  have h1 : firstIdx ':' (c :: t) = (firstIdx ':' t).map (fun n => n + 1) := by
    simp [firstIdx, hc]
  have h2 : firstIdx '/' (c :: t) = (firstIdx '/' t).map (fun n => n + 1) := by
    simp [firstIdx, hs]
  rw [hasProto, h1, h2, hasProto]
  cases firstIdx ':' t with
  | none => cases firstIdx '/' t <;> rfl
  | some ci =>
    cases firstIdx '/' t with
    | none => rfl
    | some si => simp [Nat.add_lt_add_iff_right]

/-- The scheme test of the code decides exactly the specification's
scheme-bearing predicate. -/
theorem hasProto_iff (u : List Char) : hasProto u = true ↔ schemeBearing u := by
  induction u with
  | nil =>
    rw [hasProto_nil]
    simp only [Bool.false_eq_true, false_iff, schemeBearing]
    rintro ⟨pre, post, heq, -⟩
    exact absurd heq.symm (List.append_ne_nil_of_right_ne_nil pre (by simp))
  | cons c t ih =>
    by_cases hc : c = ':'
    · subst hc
      rw [hasProto_colon]
      simp only [true_iff, schemeBearing]
      exact ⟨[], t, rfl, by simp⟩
    · by_cases hs : c = '/'
      · subst hs
        rw [hasProto_slash]
        simp only [Bool.false_eq_true, false_iff, schemeBearing]
        rintro ⟨pre, post, heq, hn⟩
        cases pre with
        | nil =>
          simp only [List.nil_append, List.cons.injEq] at heq
          exact absurd heq.1 (by decide)
        | cons p pre2 =>
          simp only [List.cons_append, List.cons.injEq] at heq
          exact hn (heq.1 ▸ List.mem_cons_self p pre2)
      · rw [hasProto_cons c t hc hs, ih]
        constructor
        · rintro ⟨pre, post, rfl, hn⟩
          refine ⟨c :: pre, post, rfl, ?_⟩
          intro hm
          rcases List.mem_cons.mp hm with h | h
          · exact hs h.symm
          · exact hn h
        · rintro ⟨pre, post, heq, hn⟩
          cases pre with
          | nil =>
            simp only [List.nil_append, List.cons.injEq] at heq
            exact absurd heq.1 hc
          | cons p pre2 =>
            simp only [List.cons_append, List.cons.injEq] at heq
            exact ⟨pre2, post, heq.2, fun hm => hn (List.mem_cons_of_mem p hm)⟩

/-- The allowlist test of the code decides exactly the specification's
case-insensitive protocol membership. -/
theorem hasAllowedProtocol_iff (u : List Char) (ps : List String) :
    hasAllowedProtocol u ps = true ↔ allowlisted u ps := by
  simp [hasAllowedProtocol, allowlisted, List.any_eq_true]

/-- Lower casing either fixes a character or yields a basic lower-case
letter (code 97 to 122). -/
theorem toLower_cases (c : Char) :
    c.toLower = c ∨ (97 ≤ c.toLower.toNat ∧ c.toLower.toNat ≤ 122) := by
  have hdef : c.toLower = if c.toNat ≥ 65 ∧ c.toNat ≤ 90 then Char.ofNat (c.toNat + 32) else c :=
    rfl
  rw [hdef]
  split
  · rename_i hc
    right
    have hv : (c.toNat + 32).isValidChar := Or.inl (by omega)
    have ht : (Char.ofNat (c.toNat + 32)).toNat = c.toNat + 32 := by
      unfold Char.ofNat
      rw [dif_pos hv]
      rfl
    omega
  · left
    rfl

/-- A character whose lower case is a character below code 97 (such as a
colon or a slash) already was that character. -/
theorem toLower_eq_low {c d : Char} (hd : d.toNat < 97) (h : c.toLower = d) : c = d := by
  rcases toLower_cases c with h1 | h2
  · exact h1.symm.trans h
  · rw [h] at h2
    omega

/-- When every configured protocol is free of forward slashes, a
successful allowlist test certifies a scheme-bearing string. -/
theorem allowlisted_schemeBearing (u : List Char) (ps : List String)
    (hps : ∀ p ∈ ps, ('/' : Char) ∉ p.data)
    (h : hasAllowedProtocol u ps = true) : schemeBearing u := by
  rcases (hasAllowedProtocol_iff u ps).1 h with ⟨p, hp, hpre⟩
  rcases (startsWithL_iff _ _).1 hpre with ⟨r, hr⟩
  rw [List.append_assoc] at hr
  rw [lowerL] at hr
  rcases List.map_eq_append_iff.1 hr with ⟨a, b, hu, ha, hb⟩
  rcases List.map_eq_cons_iff.1 hb with ⟨c1, b2, hb1, hc1, hb2⟩
  have hcol : c1 = ':' := toLower_eq_low (by decide) hc1
  refine ⟨a, b2, by rw [hu, hb1, hcol], ?_⟩
  intro hm
  have hmem : ('/' : Char) ∈ lowerL p.data := by
    rw [← ha]
    exact List.mem_map.mpr ⟨'/', hm, rfl⟩
  rcases List.mem_map.mp hmem with ⟨y, hy, hly⟩
  have : y = '/' := toLower_eq_low (by decide) hly
  exact hps p hp (this ▸ hy)

/-- A nonempty list is not `isEmpty`. -/
theorem nonempty_isEmpty_false {u : List Char} (h : u ≠ []) : u.isEmpty = false := by
  cases u with
  | nil => exact absurd rfl h
  | cons c t => rfl

/-- Veto 1: a control character rejects under every configuration. -/
theorem ctl_veto (url : String) (o : SafeUrlOptions) (h : containsCtl url.data = true) :
    isSafeUrl url o = false := by
  have hne : url.data ≠ [] := by
    intro he
    rw [he] at h
    simp [containsCtl] at h
  simp [isSafeUrl, nonempty_isEmpty_false hne, h]

/-- Veto 2: a traversal match rejects under every configuration. -/
theorem traversal_veto (url : String) (o : SafeUrlOptions) (h : hasTraversal url.data = true) :
    isSafeUrl url o = false := by
  have hne : url.data ≠ [] := by
    intro he
    rw [he] at h
    simp [hasTraversal, dotdotBoundary, traversalScan] at h
  by_cases hc : containsCtl url.data
  · simp [isSafeUrl, nonempty_isEmpty_false hne, hc]
  · simp [isSafeUrl, nonempty_isEmpty_false hne, hc, h]

/-- Veto 4: a scheme-bearing string that fails the allowlist test rejects,
whatever the other data. -/
theorem proto_veto (url : String) (o : SafeUrlOptions)
    (hna : hasAllowedProtocol url.data (effectiveProtocols o) = false)
    (hp : hasProto url.data = true) : isSafeUrl url o = false := by
  cases he : url.data.isEmpty with
  | true => simp [isSafeUrl, he]
  | false =>
    cases hc : containsCtl url.data with
    | true => simp [isSafeUrl, he, hc]
    | false =>
      cases htr : hasTraversal url.data with
      | true => simp [isSafeUrl, he, hc, htr]
      | false => simp [isSafeUrl, he, hc, htr, hna, hp]

/-- Acceptance: a nonempty string surviving vetoes 1 and 2 is accepted
when the allowlist test succeeds, or when it is schemeless and relative
URLs are allowed. -/
theorem accept_core (url : String) (o : SafeUrlOptions)
    (h0 : url.data ≠ []) (h1 : containsCtl url.data = false)
    (h2 : hasTraversal url.data = false)
    (h3 : hasAllowedProtocol url.data (effectiveProtocols o) = true ∨
      (hasProto url.data = false ∧ effectiveAllowRelative o = true)) :
    isSafeUrl url o = true := by
  rcases h3 with ha | ⟨hp, hr⟩
  · simp [isSafeUrl, nonempty_isEmpty_false h0, h1, h2, ha]
  · by_cases haa : hasAllowedProtocol url.data (effectiveProtocols o)
    · simp [isSafeUrl, nonempty_isEmpty_false h0, h1, h2, haa]
    · simp [isSafeUrl, nonempty_isEmpty_false h0, h1, h2, haa, hp, hr]

/-- A nonempty schemeless string surviving vetoes 1 and 2 and failing the
allowlist test decides exactly by `allowRelative`. -/
theorem relative_case (url : String) (o : SafeUrlOptions)
    (h0 : url.data ≠ []) (h1 : containsCtl url.data = false)
    (h2 : hasTraversal url.data = false)
    (h3 : hasAllowedProtocol url.data (effectiveProtocols o) = false)
    (h4 : hasProto url.data = false) :
    isSafeUrl url o = effectiveAllowRelative o := by
  cases hE : effectiveAllowRelative o with
  | false => simp [isSafeUrl, nonempty_isEmpty_false h0, h1, h2, h3, h4, hE]
  | true => simp [isSafeUrl, nonempty_isEmpty_false h0, h1, h2, h3, h4, hE]

/-- The relative-URL gate: a string failing both the allowlist test and
the scheme test rejects whenever relative URLs are disallowed, whatever
the other data. -/
theorem reject_relative_gate (url : String) (o : SafeUrlOptions)
    (h3 : hasAllowedProtocol url.data (effectiveProtocols o) = false)
    (h4 : hasProto url.data = false)
    (h5 : effectiveAllowRelative o = false) :
    isSafeUrl url o = false := by
  cases he : url.data.isEmpty with
  | true => simp [isSafeUrl, he]
  | false =>
    cases hc : containsCtl url.data with
    | true => simp [isSafeUrl, he, hc]
    | false =>
      cases htr : hasTraversal url.data with
      | true => simp [isSafeUrl, he, hc, htr]
      | false => simp [isSafeUrl, he, hc, htr, h3, h4, h5]

/-- C1: the specification requires the dispatcher never to invoke the
network primitive when the validator rejects the extracted string; the
code of `safeFetch` contains no call to `isSafeUrl`, so the string below,
rejected by the validator under the default configuration, is nevertheless
forwarded unchanged to `fetch`. -/
theorem c1_fetch_invoked_despite_reject :
    isSafeUrl "https://example.com/../bad" defaultOptions = false ∧
    safeFetch (FetchInput.str "https://example.com/../bad") (0 : Nat) =
      Except.ok (FetchInput.str "https://example.com/../bad", (0 : Nat)) :=
  ⟨by decide, rfl⟩

/-- C2: a carriage return, line feed or horizontal tab anywhere in the
string forces rejection under every configuration. -/
theorem c2_control_chars_rejected (s : String) (o : SafeUrlOptions)
    (h : ∃ c ∈ s.data, c = '\r' ∨ c = '\n' ∨ c = '\t') :
    isSafeUrl s o = false := by
  apply ctl_veto
  rcases h with ⟨c, hm, hc⟩
  simp only [containsCtl, List.any_eq_true]
  refine ⟨c, hm, ?_⟩
  rcases hc with rfl | rfl | rfl <;> rfl

/-- Closed instance of the control-character theorem. -/
theorem c2_witness :
    (∃ c ∈ "a\rb".data, c = '\r' ∨ c = '\n' ∨ c = '\t') ∧
    isSafeUrl "a\rb" defaultOptions = false :=
  ⟨⟨'\r', by decide, Or.inl rfl⟩,
    c2_control_chars_rejected "a\rb" defaultOptions ⟨'\r', by decide, Or.inl rfl⟩⟩

/-- C3: a segment-bounded literal dot-dot always rejects; a dot-dot
occurring only inside a longer segment never triggers the traversal veto,
so such a string is accepted when no other veto applies. -/
theorem c3_traversal_segments (s : String) (o : SafeUrlOptions) :
    (segBoundedDotdot s.data → isSafeUrl s o = false) ∧
    (hasDotdotSub s.data = true → ¬ segBoundedDotdot s.data →
      containsCtl s.data = false →
      (allowlisted s.data (effectiveProtocols o) ∨
        (¬ schemeBearing s.data ∧ effectiveAllowRelative o = true)) →
      isSafeUrl s o = true) := by
  constructor
  · intro hseg
    exact traversal_veto s o ((hasTraversal_iff _).2 hseg)
  · intro hsub hnseg hctl hacc
    have h0 : s.data ≠ [] := by
      intro he
      rw [he] at hsub
      simp [hasDotdotSub] at hsub
    have h2 : hasTraversal s.data = false := by
      cases h : hasTraversal s.data with
      | false => rfl
      | true => exact absurd ((hasTraversal_iff _).1 h) hnseg
    apply accept_core s o h0 hctl h2
    rcases hacc with ha | ⟨hns, hr⟩
    · exact Or.inl ((hasAllowedProtocol_iff _ _).2 ha)
    · refine Or.inr ⟨?_, hr⟩
      cases h : hasProto s.data with
      | false => rfl
      | true => exact absurd ((hasProto_iff _).1 h) hns

/-- Closed instance of the traversal-segment theorem: a bounded dot-dot
rejects, a dot-dot inside a file name is accepted. -/
theorem c3_witness :
    isSafeUrl "x/../y" defaultOptions = false ∧ isSafeUrl "a..b" defaultOptions = true := by
  constructor
  · exact (c3_traversal_segments "x/../y" defaultOptions).1
      (Or.inr ⟨['x'], ['/', 'y'], by decide, Or.inr ⟨['y'], rfl⟩⟩)
  · exact (c3_traversal_segments "a..b" defaultOptions).2 (by decide)
      (fun hseg => absurd ((hasTraversal_iff _).2 hseg) (by decide)) (by decide)
      (Or.inr ⟨fun hsch => absurd ((hasProto_iff _).2 hsch) (by decide), rfl⟩)

/-- C4: an allowlisted case-insensitive scheme prefix accepts when vetoes
1 and 2 do not fire; a scheme-bearing string with no allowlisted prefix
rejects under every configuration, in particular when relative URLs are
allowed. -/
theorem c4_protocol_allowlist (s : String) (o : SafeUrlOptions) :
    (allowlisted s.data (effectiveProtocols o) → containsCtl s.data = false →
      ¬ segBoundedDotdot s.data → isSafeUrl s o = true) ∧
    (schemeBearing s.data → ¬ allowlisted s.data (effectiveProtocols o) →
      isSafeUrl s o = false) := by
  constructor
  · intro ha hctl hnseg
    have haa : hasAllowedProtocol s.data (effectiveProtocols o) = true :=
      (hasAllowedProtocol_iff _ _).2 ha
    have h0 : s.data ≠ [] := by
      rcases ha with ⟨p, hp, hpre⟩
      rcases (startsWithL_iff _ _).1 hpre with ⟨r, hr⟩
      intro he
      rw [he] at hr
      have hl := congrArg List.length hr
      simp [lowerL] at hl
      omega
    have h2 : hasTraversal s.data = false := by
      cases h : hasTraversal s.data with
      | false => rfl
      | true => exact absurd ((hasTraversal_iff _).1 h) hnseg
    exact accept_core s o h0 hctl h2 (Or.inl haa)
  · intro hsch hna
    apply proto_veto
    · cases h : hasAllowedProtocol s.data (effectiveProtocols o) with
      | false => rfl
      | true => exact absurd ((hasAllowedProtocol_iff _ _).1 h) hna
    · exact (hasProto_iff _).2 hsch

/-- Closed instance of the allowlist theorem: an upper-case `https` URL is
accepted, a `javascript:` URL is rejected. -/
theorem c4_witness :
    isSafeUrl "HTTPS://example.com" defaultOptions = true ∧
    isSafeUrl "javascript:alert(1)" defaultOptions = false := by
  constructor
  · exact (c4_protocol_allowlist "HTTPS://example.com" defaultOptions).1
      ((hasAllowedProtocol_iff _ _).1 (by decide)) (by decide)
      (fun hseg => absurd ((hasTraversal_iff _).2 hseg) (by decide))
  · exact (c4_protocol_allowlist "javascript:alert(1)" defaultOptions).2
      ((hasProto_iff _).1 (by decide))
      (fun ha => absurd ((hasAllowedProtocol_iff _ _).2 ha) (by decide))

/-- C5 counterexample: with the empty allowlist and `allowRelative = true`
the schemeless string below is rejected (its tab fires veto 1), so the
decision does not equal the value of `allowRelative`. -/
theorem c5_counterexample :
    hasProto "a\tb".data = false ∧
    isSafeUrl "a\tb" ⟨some true, some []⟩ = false :=
  ⟨by decide, by decide⟩

/-- C5 (amended): with the empty allowlist, every scheme-bearing string is
rejected; a nonempty schemeless string that passes the control-character
and traversal vetoes decides exactly by `allowRelative`. -/
theorem c5_empty_allowlist (s : String) (ar : Bool) :
    (schemeBearing s.data → isSafeUrl s ⟨some ar, some []⟩ = false) ∧
    (¬ schemeBearing s.data → s.data ≠ [] → containsCtl s.data = false →
      ¬ segBoundedDotdot s.data → isSafeUrl s ⟨some ar, some []⟩ = ar) := by
  have hna : hasAllowedProtocol s.data (effectiveProtocols ⟨some ar, some []⟩) = false := rfl
  constructor
  · intro hsch
    exact proto_veto s _ hna ((hasProto_iff _).2 hsch)
  · intro hns h0 hctl hnseg
    have h2 : hasTraversal s.data = false := by
      cases h : hasTraversal s.data with
      | false => rfl
      | true => exact absurd ((hasTraversal_iff _).1 h) hnseg
    have h4 : hasProto s.data = false := by
      cases h : hasProto s.data with
      | false => rfl
      | true => exact absurd ((hasProto_iff _).1 h) hns
    exact relative_case s _ h0 hctl h2 hna h4

/-- Closed instance of the empty-allowlist theorem. -/
theorem c5_witness :
    isSafeUrl "javascript:alert(1)" ⟨some true, some []⟩ = false ∧
    isSafeUrl "/api/data" ⟨some true, some []⟩ = true := by
  constructor
  · exact (c5_empty_allowlist "javascript:alert(1)" true).1 ((hasProto_iff _).1 (by decide))
  · exact (c5_empty_allowlist "/api/data" true).2
      (fun h => absurd ((hasProto_iff _).2 h) (by decide)) (by decide) (by decide)
      (fun h => absurd ((hasTraversal_iff _).2 h) (by decide))

/-- C6 counterexample: with `allowRelative = false` and the pathological
allowlist entry containing a slash, the schemeless string below is
accepted, so rejection of schemeless strings is not unconditional. -/
theorem c6_counterexample :
    hasProto "a/b://x".data = false ∧
    isSafeUrl "a/b://x" ⟨some false, some ["a/b"]⟩ = true :=
  ⟨by decide, by decide⟩

/-- C6 (amended): with `allowRelative = false`, and every configured
protocol free of forward slashes, every schemeless string is rejected;
the control-character and traversal vetoes reject as before under this
configuration. -/
theorem c6_no_relative (s : String) (ps : List String)
    (hps : ∀ p ∈ ps, ('/' : Char) ∉ p.data) :
    (¬ schemeBearing s.data → isSafeUrl s ⟨some false, some ps⟩ = false) ∧
    (∀ t : String, containsCtl t.data = true ∨ segBoundedDotdot t.data →
      isSafeUrl t ⟨some false, some ps⟩ = false) := by
  constructor
  · intro hns
    have hna : hasAllowedProtocol s.data (effectiveProtocols ⟨some false, some ps⟩) = false := by
      cases h : hasAllowedProtocol s.data (effectiveProtocols ⟨some false, some ps⟩) with
      | false => rfl
      | true => exact absurd (allowlisted_schemeBearing s.data ps hps h) hns
    have h4 : hasProto s.data = false := by
      cases h : hasProto s.data with
      | false => rfl
      | true => exact absurd ((hasProto_iff _).1 h) hns
    exact reject_relative_gate s _ hna h4 rfl
  · intro t ht
    rcases ht with h | h
    · exact ctl_veto t _ h
    · exact traversal_veto t _ ((hasTraversal_iff _).2 h)

/-- Closed instance of the no-relative theorem. -/
theorem c6_witness :
    isSafeUrl "/api/data" ⟨some false, some ["http", "https"]⟩ = false ∧
    isSafeUrl "a\rb" ⟨some false, some ["http", "https"]⟩ = false := by
  constructor
  · exact (c6_no_relative "/api/data" ["http", "https"] (by decide)).1
      (fun h => absurd ((hasProto_iff _).2 h) (by decide))
  · exact (c6_no_relative "/api/data" ["http", "https"] (by decide)).2 "a\rb"
      (Or.inl (by decide))

/-- A string starting with two forward slashes never matches the allowlist
test when no configured protocol begins with two forward slashes. -/
theorem protocolRelative_no_allowlist (rest : List Char) (ps : List String)
    (hps : ∀ p ∈ ps, startsWithL ['/', '/'] p.data = false) :
    hasAllowedProtocol ('/' :: '/' :: rest) ps = false := by
  cases h : hasAllowedProtocol ('/' :: '/' :: rest) ps with
  | false => rfl
  | true =>
    exfalso
    rcases (hasAllowedProtocol_iff _ _).1 h with ⟨p, hp, hpre⟩
    have hlow : lowerL ('/' :: '/' :: rest) = '/' :: '/' :: lowerL rest := rfl
    rw [hlow] at hpre
    cases hpd : p.data with
    | nil =>
      rw [hpd] at hpre
      simp [lowerL, startsWithL, show (':' == '/') = false from rfl] at hpre
    | cons a t1 =>
      cases t1 with
      | nil =>
        rw [hpd] at hpre
        simp [lowerL, startsWithL, show (':' == '/') = false from rfl] at hpre
      | cons b t2 =>
        rw [hpd] at hpre
        simp only [lowerL, List.map_cons, List.cons_append, startsWithL, Bool.and_eq_true,
          beq_iff_eq] at hpre
        have ha : a = '/' := toLower_eq_low (by decide) hpre.1
        have hb : b = '/' := toLower_eq_low (by decide) hpre.2.1
        have hfail := hps p hp
        rw [hpd, ha, hb] at hfail
        simp [startsWithL] at hfail

/-- C7 counterexample: the protocol-relative string below, paired with a
pathological allowlist entry beginning with two slashes, is accepted even
though `allowRelative` is false, so its acceptance is not independent of
`allowedProtocols`. -/
theorem c7_counterexample :
    "//e://x".data = '/' :: '/' :: "e://x".data ∧
    isSafeUrl "//e://x" ⟨some false, some ["//e"]⟩ = true :=
  ⟨by decide, by decide⟩

/-- C7 (amended): a protocol-relative string is classified schemeless, and
provided no configured protocol begins with two forward slashes, it is
accepted exactly when `allowRelative` is true and neither the
control-character nor the traversal veto fires. -/
theorem c7_protocol_relative (s : String) (rest : List Char) (ps : List String) (ar : Bool)
    (hs : s.data = '/' :: '/' :: rest)
    (hps : ∀ p ∈ ps, startsWithL ['/', '/'] p.data = false) :
    ¬ schemeBearing s.data ∧
    (isSafeUrl s ⟨some ar, some ps⟩ = true ↔
      (ar = true ∧ containsCtl s.data = false ∧ ¬ segBoundedDotdot s.data)) := by
  have hnp : hasProto s.data = false := by
    rw [hs]
    exact hasProto_slash _
  have hns : ¬ schemeBearing s.data := by
    intro h
    exact absurd (((hasProto_iff s.data).2 h).symm.trans hnp) (by decide)
  have hna : hasAllowedProtocol s.data (effectiveProtocols ⟨some ar, some ps⟩) = false := by
    show hasAllowedProtocol s.data ps = false
    rw [hs]
    exact protocolRelative_no_allowlist rest ps hps
  refine ⟨hns, ?_, ?_⟩
  · intro hacc
    have hctl : containsCtl s.data = false := by
      cases h : containsCtl s.data with
      | false => rfl
      | true => exact absurd ((ctl_veto s _ h).symm.trans hacc) (by decide)
    have htr : hasTraversal s.data = false := by
      cases h : hasTraversal s.data with
      | false => rfl
      | true => exact absurd ((traversal_veto s _ h).symm.trans hacc) (by decide)
    have har : ar = true := by
      cases har : ar with
      | true => rfl
      | false =>
        have hgate := reject_relative_gate s ⟨some ar, some ps⟩ hna hnp har
        exact absurd (hgate.symm.trans hacc) (by decide)
    refine ⟨har, hctl, fun hseg => ?_⟩
    exact absurd (((hasTraversal_iff _).2 hseg).symm.trans htr) (by decide)
  · rintro ⟨rfl, hctl, hnseg⟩
    have htr : hasTraversal s.data = false := by
      cases h : hasTraversal s.data with
      | false => rfl
      | true => exact absurd ((hasTraversal_iff _).1 h) hnseg
    have h0 : s.data ≠ [] := by
      rw [hs]
      simp
    exact accept_core s _ h0 hctl htr (Or.inr ⟨hnp, rfl⟩)

/-- Closed instance of the protocol-relative theorem. -/
theorem c7_witness :
    ¬ schemeBearing "//example.com/page".data ∧
    isSafeUrl "//example.com/page" ⟨some true, some ["http", "https"]⟩ = true := by
  have h := c7_protocol_relative "//example.com/page" "example.com/page".data
    ["http", "https"] true (by decide) (by decide)
  exact ⟨h.1, h.2.2 ⟨rfl, by decide,
    fun hseg => absurd ((hasTraversal_iff _).2 hseg) (by decide)⟩⟩

/-- C8: the validator decodes nothing; every string with no literal
segment-bounded dot-dot and no control character passes vetoes 1 and 2,
and is accepted when an allowlisted prefix is present or the string is
schemeless and relative URLs are allowed.  The witness instantiates this
with a percent-encoded and a backslash-delimited traversal string. -/
theorem c8_no_decoding (s : String) (o : SafeUrlOptions)
    (h0 : s.data ≠ [])
    (h1 : containsCtl s.data = false)
    (h2 : ¬ segBoundedDotdot s.data)
    (h3 : allowlisted s.data (effectiveProtocols o) ∨
      (¬ schemeBearing s.data ∧ effectiveAllowRelative o = true)) :
    isSafeUrl s o = true := by
  have htr : hasTraversal s.data = false := by
    cases h : hasTraversal s.data with
    | false => rfl
    | true => exact absurd ((hasTraversal_iff _).1 h) h2
  apply accept_core s o h0 h1 htr
  rcases h3 with ha | ⟨hns, hr⟩
  · exact Or.inl ((hasAllowedProtocol_iff _ _).2 ha)
  · refine Or.inr ⟨?_, hr⟩
    cases h : hasProto s.data with
    | false => rfl
    | true => exact absurd ((hasProto_iff _).1 h) hns

/-- Closed instance of the no-decoding theorem: the percent-encoded and
the backslash-delimited traversal strings are both accepted under the
default configuration. -/
theorem c8_witness :
    isSafeUrl "https://example.com/api/%2e%2e/secret" defaultOptions = true ∧
    isSafeUrl "..\\Windows\\System32" defaultOptions = true := by
  constructor
  · exact c8_no_decoding _ defaultOptions (by decide) (by decide)
      (fun h => absurd ((hasTraversal_iff _).2 h) (by decide))
      (Or.inl ((hasAllowedProtocol_iff _ _).1 (by decide)))
  · exact c8_no_decoding _ defaultOptions (by decide) (by decide)
      (fun h => absurd ((hasTraversal_iff _).2 h) (by decide))
      (Or.inr ⟨fun h => absurd ((hasProto_iff _).2 h) (by decide), rfl⟩)

/-- C9: the validator is total with a Boolean codomain by its Lean type;
the empty string and every non-string value are rejected before any
pattern matching, under every configuration. -/
theorem c9_degenerate_inputs (v : JsValue) (o : SafeUrlOptions)
    (h : v = JsValue.nonString ∨ v = JsValue.str "") :
    isSafeUrlJs v o = false := by
  rcases h with rfl | rfl
  · rfl
  · rfl

/-- Closed instance of the degenerate-input theorem. -/
theorem c9_witness : isSafeUrlJs JsValue.nonString defaultOptions = false :=
  c9_degenerate_inputs JsValue.nonString defaultOptions (Or.inl rfl)

/-- C10: the request-descriptor branch of `safeFetch` throws the
security-violation error unconditionally once a string `url` field is
extracted, for every such input and every options value — in particular
also when the validator would accept the url. -/
theorem c10_request_always_throws {α : Type} (u : String) (v : α) :
    safeFetch (FetchInput.request (some u)) v = Except.error (secViolationMsg u) :=
  rfl

end SafeUrl
